import Mathlib

/-!
# Go channel patterns

A shallow embedding of five programs of the repository and the properties
proved about them.

* retry_timeout.go: the function retryTimeout, as a loop over a discrete clock
  that returns the steps it took; retryLoop is the loop when calls of check take
  no time, retryLoopTimed the loop when each call lasts a given time.
* drop_pattern.go, fan_in_fan_out.go, bounded_work_pooling.go and
  cancellation_pattern.go: each program as a transition system whose steps are
  the channel operations of its goroutines; an interleaving is a list of the
  goroutines scheduled in turn, and a goroutine scheduled while it is blocked
  leaves the state unchanged.

A buffered channel is its queue of values (send appends when a slot is free,
receive takes the oldest value) and its closed flag. Where a channel of
capacity 0 matters, a goroutine parked in a receive is part of the state and a
send hands its value straight to it.
-/

/-! ## Definitions -/

namespace RetryTimeout

/-- Failure cause reported by ctx.Err() once the context has fired. -/
inductive CtxErr where
  | Canceled
  | DeadlineExceeded
deriving DecidableEq

/-- Context handed to retryTimeout. Instants are counted from the call of
retryTimeout (instant 0). The context fires once, at instant fireAt (none: it
never fires), and keeps the cause it fired with. A context that was timed out
or cancelled before the call has fireAt = some 0. -/
structure Context where
  fireAt : Option Nat
  cause : CtxErr
deriving DecidableEq

/-- Value of ctx.Err() at instant now: nil (none) until the context fires. -/
def Context.Err (ctx : Context) (now : Nat) : Option CtxErr :=
  match ctx.fireAt with
  | some d => if d ≤ now then some ctx.cause else none
  | none => none

/-- Context built by context.WithTimeout whose deadline is instant d. -/
def withTimeout (d : Nat) : Context := ⟨some d, CtxErr.DeadlineExceeded⟩

/-- Observable steps of retryTimeout, each stamped with the instant it happens. -/
inductive Event where
  /-- Line 34: check(ctx) was invoked; ok means it returned a nil error. -/
  | check (now : Nat) (ok : Bool)
  /-- Line 43: ctx.Err() was read. -/
  | ctxErr (now : Nat) (err : Option CtxErr)
  /-- Line 53: time.NewTimer(retryInterval). -/
  | newTimer (now : Nat)
  /-- Line 57: the select received from ctx.Done(). -/
  | recvDone (now : Nat)
  /-- Line 61: the select received from t.C (retry again). -/
  | recvTimer (now : Nat)
deriving DecidableEq

/-- Tells the invocations of check among the steps. -/
def Event.isCheck : Event → Bool
  | Event.check _ _ => true
  | _ => false

/-- The three return statements of retryTimeout. -/
inductive Outcome where
  /-- Line 36: work finished successfully. -/
  | success
  /-- Line 45: time expired 1, with the value of ctx.Err(). -/
  | expired1 (err : CtxErr)
  /-- Line 60: time expired 2, with the value of ctx.Err() printed there. -/
  | expired2 (err : Option CtxErr)
deriving DecidableEq

/-- Case taken by the select of lines 56 to 63, with the instant it is taken. -/
inductive Selected where
  | done (instant : Nat)
  | timer (instant : Nat)
deriving DecidableEq

/-- The select of lines 56 to 63 entered at instant now with a fresh timer of
retryInterval: ctx.Done() is ready from the instant the context fires, t.C from
now + retryInterval. The case that is ready first is taken; when both become
ready at the same instant Go picks one of them, which tieDone decides here. -/
def selectWait (ctx : Context) (retryInterval : Nat) (tieDone : Bool) (now : Nat) : Selected :=
  let timerAt := now + retryInterval
  match ctx.fireAt with
  | none => Selected.timer timerAt
  | some d =>
    let doneAt := max d now
    if doneAt < timerAt then Selected.done doneAt
    else if timerAt < doneAt then Selected.timer timerAt
    else if tieDone then Selected.done doneAt
    else Selected.timer timerAt

/-- What a run of retryTimeout has done so far: outcome is none while the loop
is still running, calls counts the invocations of check, now is the current
instant and trace lists the steps in order. -/
structure Run where
  outcome : Option Outcome
  calls : Nat
  now : Nat
  trace : List Event
deriving DecidableEq

/-- Puts the steps evs in front of the trace of r. -/
def Run.after (evs : List Event) (r : Run) : Run :=
  { r with trace := evs ++ r.trace }

/-- The for loop of retryTimeout (lines 28 to 64), run for at most fuel
iterations from the state where check has been invoked calls times and the
clock shows now. check calls now is true when the invocation number calls of
check, made at instant now, returns nil. tie calls settles a tie in the select
of that iteration. Calls of check take no time. -/
def retryLoop (ctx : Context) (retryInterval : Nat) (check : Nat → Nat → Bool)
    (tie : Nat → Bool) : Nat → Nat → Nat → Run
  | 0, calls, now => ⟨none, calls, now, []⟩
  | fuel + 1, calls, now =>
    if check calls now then
      ⟨some Outcome.success, calls + 1, now, [Event.check now true]⟩
    else
      match ctx.Err now with
      | some e =>
        ⟨some (Outcome.expired1 e), calls + 1, now,
          [Event.check now false, Event.ctxErr now (some e)]⟩
      | none =>
        match selectWait ctx retryInterval (tie calls) now with
        | Selected.done d =>
          ⟨some (Outcome.expired2 (ctx.Err d)), calls + 1, d,
            [Event.check now false, Event.ctxErr now none, Event.newTimer now,
              Event.recvDone d]⟩
        | Selected.timer d =>
          Run.after
            [Event.check now false, Event.ctxErr now none, Event.newTimer now,
              Event.recvTimer d]
            (retryLoop ctx retryInterval check tie fuel (calls + 1) d)

/-- The function retryTimeout of retry_timeout.go, entered at instant 0. -/
def retryTimeout (ctx : Context) (retryInterval : Nat) (check : Nat → Nat → Bool)
    (tie : Nat → Bool) (fuel : Nat) : Run :=
  retryLoop ctx retryInterval check tie fuel 0 0

/-- The for loop of retryTimeout (lines 28 to 64) when an invocation of check
takes time: the invocation number calls, started at instant now, returns at
instant now + dur calls now, and everything after it in the iteration (the read
of ctx.Err(), the new timer, the select) starts from that instant. The steps
of the trace carry the instant at which they happen; the invocation of check
carries the instant at which it starts. -/
def retryLoopTimed (ctx : Context) (retryInterval : Nat) (check : Nat → Nat → Bool)
    (dur : Nat → Nat → Nat) (tie : Nat → Bool) : Nat → Nat → Nat → Run
  | 0, calls, now => ⟨none, calls, now, []⟩
  | fuel + 1, calls, now =>
    if check calls now then
      ⟨some Outcome.success, calls + 1, now + dur calls now, [Event.check now true]⟩
    else
      match ctx.Err (now + dur calls now) with
      | some e =>
        ⟨some (Outcome.expired1 e), calls + 1, now + dur calls now,
          [Event.check now false, Event.ctxErr (now + dur calls now) (some e)]⟩
      | none =>
        match selectWait ctx retryInterval (tie calls) (now + dur calls now) with
        | Selected.done d =>
          ⟨some (Outcome.expired2 (ctx.Err d)), calls + 1, d,
            [Event.check now false, Event.ctxErr (now + dur calls now) none,
              Event.newTimer (now + dur calls now), Event.recvDone d]⟩
        | Selected.timer d =>
          Run.after
            [Event.check now false, Event.ctxErr (now + dur calls now) none,
              Event.newTimer (now + dur calls now), Event.recvTimer d]
            (retryLoopTimed ctx retryInterval check dur tie fuel (calls + 1) d)

/-- A check that fails on its first two invocations and succeeds from the third. -/
def succeedsOnThird (call : Nat) (_now : Nat) : Bool := decide (2 ≤ call)

/-- The check DBHealthCheck of lines 67 to 73: it returns the error ping error on
every invocation. -/
def DBHealthCheck (_call : Nat) (_now : Nat) : Bool := false

end RetryTimeout

namespace DropPattern

/-- Outcome of one submission of the select of lines 36 to 49: the send case
(parent: sent signal) or the default case (parent: dropped data). -/
inductive DropDecision where
  | Delivered
  | Dropped
deriving DecidableEq

/-- Where the child goroutine of lines 24 to 28 stands: about to receive,
parked in a receive on the empty channel, or past its range loop. -/
inductive Child where
  | running
  | parked
  | exited
deriving DecidableEq

/-- State of the program: the buffer and closed flag of ch, the child, the
loop variable w of the parent, the number of submissions that took the send
case and the default case, and the values the child has received so far. -/
structure State where
  buf : List String
  closed : Bool
  child : Child
  w : Nat
  delivered : Nat
  dropped : Nat
  received : List String
deriving DecidableEq

/-- State after make(chan string, capacity) and the go statement. -/
def init : State := ⟨[], false, Child.running, 0, 0, 0, []⟩

/-- The select of lines 36 to 49 submitting v. The send case can proceed when
the child is parked in its receive (the value is handed to it directly) or when
the buffer has a free slot; otherwise default runs and nothing is sent. It
never blocks: it always returns a decision and the state after it. -/
def trySend (capacity : Nat) (s : State) (v : String) : DropDecision × State :=
  if s.child = Child.parked then
    (DropDecision.Delivered,
      { s with child := Child.running, received := s.received ++ [v] })
  else if s.buf.length < capacity then
    (DropDecision.Delivered, { s with buf := s.buf ++ [v] })
  else
    (DropDecision.Dropped, s)

/-- One step of the parent: one iteration of the loop of lines 31 to 50 while
w < work (the select, then the print of the case taken, then w++), then
close(ch) at line 52. -/
def parentStep (capacity work : Nat) (s : State) : State :=
  if s.w < work then
    match trySend capacity s "data" with
    | (DropDecision.Delivered, t) => { t with delivered := t.delivered + 1, w := t.w + 1 }
    | (DropDecision.Dropped, t) => { t with dropped := t.dropped + 1, w := t.w + 1 }
  else
    { s with closed := true }

/-- One step of the child: one receive of its range loop (line 25). It takes
the oldest buffered value; on an empty buffer it leaves the loop when ch is
closed and parks otherwise. -/
def childStep (s : State) : State :=
  match s.child with
  | Child.exited => s
  | _ =>
    match s.buf with
    | v :: rest =>
      { s with buf := rest, received := s.received ++ [v], child := Child.running }
    | [] =>
      if s.closed then { s with child := Child.exited }
      else { s with child := Child.parked }

/-- The two goroutines of the program. -/
inductive Actor where
  | parent
  | child
deriving DecidableEq

/-- One scheduling step: the chosen goroutine runs its next operation. -/
def step (capacity work : Nat) (s : State) (a : Actor) : State :=
  match a with
  | Actor.parent => parentStep capacity work s
  | Actor.child => childStep s

/-- State reached from init under the interleaving sched. -/
def run (capacity work : Nat) (sched : List Actor) : State :=
  sched.foldl (step capacity work) init

/-- Invariant of the drop pattern after n steps of the parent. -/
structure Inv (capacity work n : Nat) (s : State) : Prop where
  w_eq : s.w = min work n
  sum : s.delivered + s.dropped = s.w
  cap : s.buf.length ≤ capacity
  flow : s.delivered = s.buf.length + s.received.length
  parked : s.child = Child.parked → s.buf = []

end DropPattern

namespace FanOut

/-- The value fmt.Sprintf("data-%d", child) of line 35. -/
def sprintfData (child : Nat) : String := "data-" ++ toString child

/-- Where the parent goroutine stands: in the loop of lines 28 to 38 that
creates the children, in the counting loop of lines 43 to 49, or past it. -/
inductive ParentPc where
  | spawnLoop
  | recvLoop
  | finished
deriving DecidableEq

/-- State of the program: capacity and buffer of ch, the variable children,
the loop variable c (children created so far, numbered 0 to c - 1), the parent,
the children whose send of line 35 has completed (in order of completion) and
the values the parent has received (in order of receipt). -/
structure State where
  cap : Nat
  children : Nat
  c : Nat
  pc : ParentPc
  sent : List Nat
  buf : List String
  received : List String
deriving DecidableEq

/-- State after children := N and ch := make(chan string, children). -/
def init (N : Nat) : State := ⟨N, N, 0, ParentPc.spawnLoop, [], [], []⟩

/-- One step of the parent: one iteration of the creation loop (a go statement),
or one iteration of the counting loop (a receive from ch, which waits while the
buffer is empty, then children--), or leaving a loop whose condition is false. -/
def parentStep (s : State) : State :=
  match s.pc with
  | ParentPc.spawnLoop =>
    if s.c < s.children then { s with c := s.c + 1 }
    else { s with pc := ParentPc.recvLoop }
  | ParentPc.recvLoop =>
    if 0 < s.children then
      match s.buf with
      | v :: rest =>
        { s with buf := rest, children := s.children - 1, received := s.received ++ [v] }
      | [] => s
    else { s with pc := ParentPc.finished }
  | ParentPc.finished => s

/-- One step of child number child: its send of line 35, which completes when
the buffer has a free slot and waits otherwise. A child that has not been
created yet, or has already sent, does nothing. -/
def childStep (child : Nat) (s : State) : State :=
  if child < s.c ∧ child ∉ s.sent then
    if s.buf.length < s.cap then
      { s with buf := s.buf ++ [sprintfData child], sent := s.sent ++ [child] }
    else s
  else s

/-- The goroutines of the program. -/
inductive Actor where
  | parent
  | child (child : Nat)
deriving DecidableEq

/-- One scheduling step: the chosen goroutine runs its next operation. -/
def step (s : State) (a : Actor) : State :=
  match a with
  | Actor.parent => parentStep s
  | Actor.child i => childStep i s

/-- State reached from init N under the interleaving sched. -/
def run (N : Nat) (sched : List Actor) : State :=
  sched.foldl step (init N)

/-- Number of operations completed so far; every step that changes the state
adds one to it. -/
def progress (s : State) : Nat :=
  s.c + s.sent.length + s.received.length +
    (match s.pc with
     | ParentPc.spawnLoop => 0
     | ParentPc.recvLoop => 1
     | ParentPc.finished => 2)

/-- Invariant of the fan out / fan in program of width N. -/
structure Inv (N : Nat) (s : State) : Prop where
  cap_eq : s.cap = N
  count : s.received.length + s.children = N
  spawn : s.pc = ParentPc.spawnLoop → s.children = N ∧ s.c ≤ N
  spawned : s.pc ≠ ParentPc.spawnLoop → s.c = N
  fin : s.pc = ParentPc.finished → s.children = 0
  nodup : s.sent.Nodup
  lt : ∀ i ∈ s.sent, i < s.c
  flow : s.received ++ s.buf = s.sent.map sprintfData

end FanOut

namespace BoundedWorkPool

/-- Indices of the elements of a Go slice literal: an element with a key sits
at its key, an element without a key right after the element before it (the
first one at 0). -/
def literalIndices : Nat → List (Option Nat × String) → List (Nat × String)
  | _, [] => []
  | pos, (none, v) :: rest => (pos, v) :: literalIndices (pos + 1) rest
  | _, (some k, v) :: rest => (k, v) :: literalIndices (k + 1) rest

/-- Length of a Go slice literal: one more than its largest index. -/
def literalLen (placed : List (Nat × String)) : Nat :=
  placed.foldl (fun m p => max m (p.1 + 1)) 0

/-- Value of the Go slice literal []string{...}: every index below the length
holds the element placed there, or the empty string when none is. -/
def sliceLiteral (elems : List (Option Nat × String)) : List String :=
  (List.range (literalLen (literalIndices 0 elems))).map
    (fun i => ((literalIndices 0 elems).lookup i).getD "")

/-- The slice work of line 14:
[]string{"paper", "paper", "paper", "paper", 2000: "paper"}. -/
def work : List String :=
  sliceLiteral [(none, "paper"), (none, "paper"), (none, "paper"), (none, "paper"),
    (some 2000, "paper")]

/-- Where the parent goroutine stands: creating the pool (lines 26 to 38),
sending the work (lines 42 to 44), about to close ch (line 48), in wg.Wait()
(line 49), or past it. -/
inductive ParentPc where
  | spawnLoop
  | sendLoop
  | closing
  | waiting
  | finished
deriving DecidableEq

/-- State of the program. c counts the workers created so far (numbered 0 to
c - 1); next is the index of the next element of work to send; buf is the
buffer of ch, each value with its index in work; wg is the counter of the
WaitGroup; left lists the workers that have left their range loop, doneCalls
those whose deferred wg.Done() has run, and handled the values received at line
33 as (worker, index, value), all three in order of occurrence. -/
structure State where
  pc : ParentPc
  c : Nat
  next : Nat
  buf : List (Nat × String)
  closed : Bool
  wg : Int
  left : List Nat
  doneCalls : List Nat
  handled : List (Nat × Nat × String)
deriving DecidableEq

/-- State after wg.Add(g) and ch := make(chan string, g). -/
def init (g : Nat) : State := ⟨ParentPc.spawnLoop, 0, 0, [], false, g, [], [], []⟩

/-- One step of the parent in a pool of g workers fed with the slice items: a
go statement; a send of the next element, which waits while the buffer holds g
values; close(ch); or wg.Wait(), which returns once the counter is zero. -/
def parentStep (g : Nat) (items : List String) (s : State) : State :=
  match s.pc with
  | ParentPc.spawnLoop =>
    if s.c < g then { s with c := s.c + 1 }
    else { s with pc := ParentPc.sendLoop }
  | ParentPc.sendLoop =>
    match items[s.next]? with
    | some wrk =>
      if s.buf.length < g then
        { s with buf := s.buf ++ [(s.next, wrk)], next := s.next + 1 }
      else s
    | none => { s with pc := ParentPc.closing }
  | ParentPc.closing => { s with closed := true, pc := ParentPc.waiting }
  | ParentPc.waiting =>
    if s.wg = 0 then { s with pc := ParentPc.finished } else s
  | ParentPc.finished => s

/-- One step of worker number child (lines 27 to 37): a receive of its range
loop, which takes the oldest buffered value, leaves the loop on an empty closed
channel and waits on an empty open one; then, once out of the loop, the
deferred wg.Done(). -/
def workerStep (child : Nat) (s : State) : State :=
  if child < s.c then
    if child ∈ s.doneCalls then s
    else if child ∈ s.left then
      { s with doneCalls := s.doneCalls ++ [child], wg := s.wg - 1 }
    else
      match s.buf with
      | x :: rest => { s with buf := rest, handled := s.handled ++ [(child, x.1, x.2)] }
      | [] =>
        if s.closed then { s with left := s.left ++ [child] }
        else s
  else s

/-- The goroutines of the program. -/
inductive Actor where
  | parent
  | worker (child : Nat)
deriving DecidableEq

/-- One scheduling step: the chosen goroutine runs its next operation. -/
def step (g : Nat) (items : List String) (s : State) (a : Actor) : State :=
  match a with
  | Actor.parent => parentStep g items s
  | Actor.worker i => workerStep i s

/-- State reached from init g under the interleaving sched. -/
def run (g : Nat) (items : List String) (sched : List Actor) : State :=
  sched.foldl (step g items) (init g)

/-- The (index, value) pairs of the values handled so far, in order. -/
def handledItems (s : State) : List (Nat × String) :=
  s.handled.map (fun h => (h.2.1, h.2.2))

/-- Invariant of the pool of g workers fed with items. -/
structure Inv (g : Nat) (items : List String) (s : State) : Prop where
  c_le : s.c ≤ g
  spawned : s.pc ≠ ParentPc.spawnLoop → s.c = g
  spawn : s.pc = ParentPc.spawnLoop → s.next = 0
  sending : s.pc = ParentPc.spawnLoop ∨ s.pc = ParentPc.sendLoop → s.closed = false
  next_le : s.next ≤ items.length
  sentAll : s.pc ≠ ParentPc.spawnLoop → s.pc ≠ ParentPc.sendLoop → s.next = items.length
  closed_iff : s.pc = ParentPc.waiting ∨ s.pc = ParentPc.finished → s.closed = true
  closing : s.pc = ParentPc.closing → s.closed = false
  flow : handledItems s ++ s.buf = items.enum.take s.next
  cap : s.buf.length ≤ g
  drained : s.left ≠ [] → s.closed = true ∧ s.buf = []
  left_nodup : s.left.Nodup
  left_lt : ∀ i ∈ s.left, i < s.c
  done_nodup : s.doneCalls.Nodup
  done_left : ∀ i ∈ s.doneCalls, i ∈ s.left
  wg_eq : s.wg = (g : Int) - (s.doneCalls.length : Int)
  fin : s.pc = ParentPc.finished → s.wg = 0
  worker_lt : ∀ h ∈ s.handled, h.1 < s.c

/-- Number of operations completed so far: go statements, sends, receives,
workers out of their loop, calls of wg.Done(), and the stage of the parent.
Every step that changes the state adds one to it. -/
def progress (s : State) : Nat :=
  s.c + s.next + s.handled.length + s.left.length + s.doneCalls.length +
    (match s.pc with
     | ParentPc.spawnLoop => 0
     | ParentPc.sendLoop => 1
     | ParentPc.closing => 2
     | ParentPc.waiting => 3
     | ParentPc.finished => 4)

/-- The items of the worked scenario: a, b, c, d, e. -/
def exampleItems : List String := ["a", "b", "c", "d", "e"]

/-- One complete interleaving of the scenario with 4 workers: the parent creates
the pool and sends a, b, c, d; worker 0 takes a; the parent sends e and closes
ch; workers 1, 2, 3, 0 take b, c, d, e; every worker leaves its loop and calls
wg.Done(); wg.Wait() returns. -/
def exampleSched : List Actor :=
  List.replicate 9 Actor.parent ++ [Actor.worker 0] ++ List.replicate 3 Actor.parent ++
    [Actor.worker 1, Actor.worker 2, Actor.worker 3, Actor.worker 0,
     Actor.worker 0, Actor.worker 1, Actor.worker 2, Actor.worker 3,
     Actor.worker 3, Actor.worker 2, Actor.worker 1, Actor.worker 0, Actor.parent]

end BoundedWorkPool

namespace CancellationPattern

/-- Where the parent goroutine stands: about to run the select of lines 40 to
49, parked in it, past it with the value d received from ch (work complete),
or past it through ctx.Done() (work cancelled). -/
inductive ParentPc where
  | running
  | parked
  | gotResult (d : String)
  | cancelled
deriving DecidableEq

/-- Where the child goroutine of lines 21 to 32 stands: still working (before
its send of line 31), blocked in that send, or past it. -/
inductive ChildPc where
  | working
  | blockedSend
  | sent
deriving DecidableEq

/-- State of the program: the buffer of ch, whether ctx has fired, the parent
and the child. -/
structure State where
  buf : List String
  fired : Bool
  parent : ParentPc
  child : ChildPc
deriving DecidableEq

/-- State after ch is made and the child is started. -/
def init : State := ⟨[], false, ParentPc.running, ChildPc.working⟩

/-- The send of line 31 on a channel of the given capacity: the value goes
straight to the parent when it is parked in its select, into the buffer when a
slot is free, and otherwise the child blocks. -/
def childStep (capacity : Nat) (s : State) : State :=
  match s.child with
  | ChildPc.working =>
    if s.parent = ParentPc.parked then
      { s with parent := ParentPc.gotResult "data", child := ChildPc.sent }
    else if s.buf.length < capacity then
      { s with buf := s.buf ++ ["data"], child := ChildPc.sent }
    else
      { s with child := ChildPc.blockedSend }
  | ChildPc.blockedSend => s
  | ChildPc.sent => s

/-- The receive case of the select: the parent takes the oldest buffered value
(a blocked sender then moves its value into the buffer), or, on an empty
buffer, the value of the blocked sender itself. -/
def receive (s : State) : State :=
  match s.buf with
  | v :: rest =>
    if s.child = ChildPc.blockedSend then
      { s with buf := rest ++ ["data"], parent := ParentPc.gotResult v, child := ChildPc.sent }
    else
      { s with buf := rest, parent := ParentPc.gotResult v }
  | [] =>
    { s with parent := ParentPc.gotResult "data", child := ChildPc.sent }

/-- The select of lines 40 to 49: the receive case is ready when a value is
buffered or the child is blocked in its send, the ctx.Done() case when ctx has
fired. When both are ready Go picks one, which preferDone decides here; when
none is ready the parent parks. -/
def parentStep (preferDone : Bool) (s : State) : State :=
  match s.parent with
  | ParentPc.running =>
    if s.buf ≠ [] ∨ s.child = ChildPc.blockedSend then
      if s.fired ∧ preferDone then { s with parent := ParentPc.cancelled }
      else receive s
    else if s.fired then { s with parent := ParentPc.cancelled }
    else { s with parent := ParentPc.parked }
  | _ => s

/-- The timeout of ctx: ctx.Done() is closed, which wakes a parent parked in
the select through its second case. -/
def timeoutStep (s : State) : State :=
  if s.parent = ParentPc.parked then { s with fired := true, parent := ParentPc.cancelled }
  else { s with fired := true }

/-- What can happen next: the child reaches its send, the parent runs its
select, or the timeout of ctx fires. -/
inductive Actor where
  | child
  | parent (preferDone : Bool)
  | timeout
deriving DecidableEq

/-- One scheduling step on a channel of the given capacity. -/
def step (capacity : Nat) (s : State) (a : Actor) : State :=
  match a with
  | Actor.child => childStep capacity s
  | Actor.parent preferDone => parentStep preferDone s
  | Actor.timeout => timeoutStep s

/-- State reached from init under the interleaving sched. -/
def run (capacity : Nat) (sched : List Actor) : State :=
  sched.foldl (step capacity) init

/-- The interleaving where the timeout fires first, the parent walks away and
the child then reaches its send. -/
def timeoutFirst : List Actor := [Actor.timeout, Actor.parent true, Actor.child]

/-- Invariant with capacity 1: the child is never blocked and the buffer is
empty as long as the child has not sent. -/
structure Inv (s : State) : Prop where
  notBlocked : s.child ≠ ChildPc.blockedSend
  empty : s.child = ChildPc.working → s.buf = []
  cap : s.buf.length ≤ 1

end CancellationPattern

/-! ## Theorems -/

namespace ListFacts

theorem length_le_of_nodup_lt (l : List Nat) (n : Nat) (hn : l.Nodup) (hl : ∀ x ∈ l, x < n) :
    l.length ≤ n := by
  have hsub : l.toFinset ⊆ Finset.range n := by
    intro x hx
    exact Finset.mem_range.2 (hl x (List.mem_toFinset.1 hx))
  have := Finset.card_le_card hsub
  rwa [List.toFinset_card_of_nodup hn, Finset.card_range] at this

theorem perm_range_of_nodup_lt (l : List Nat) (n : Nat) (hn : l.Nodup) (hl : ∀ x ∈ l, x < n)
    (hlen : n ≤ l.length) : l.Perm (List.range n) := by
  have hsub : l.toFinset ⊆ Finset.range n := by
    intro x hx
    exact Finset.mem_range.2 (hl x (List.mem_toFinset.1 hx))
  have heq : l.toFinset = Finset.range n :=
    Finset.eq_of_subset_of_card_le hsub
      (by rw [List.toFinset_card_of_nodup hn, Finset.card_range]; exact hlen)
  apply List.perm_of_nodup_nodup_toFinset_eq hn (List.nodup_range n)
  rw [heq]
  ext x
  simp

theorem exists_not_mem_of_length_lt (l : List Nat) (n : Nat) (hlen : l.length < n) :
    ∃ i, i < n ∧ i ∉ l := by
  by_contra hcon
  push_neg at hcon
  have hsub : Finset.range n ⊆ l.toFinset := by
    intro x hx
    exact List.mem_toFinset.2 (hcon x (Finset.mem_range.1 hx))
  have h1 := Finset.card_le_card hsub
  have h2 := List.toFinset_card_le l
  rw [Finset.card_range] at h1
  omega

end ListFacts

namespace RetryTimeout

theorem retryLoop_zero (ctx : Context) (I : Nat) (check : Nat → Nat → Bool) (tie : Nat → Bool)
    (n t : Nat) : retryLoop ctx I check tie 0 n t = ⟨none, n, t, []⟩ := by
  simp [retryLoop]

theorem retryLoop_ok (ctx : Context) (I : Nat) (check : Nat → Nat → Bool) (tie : Nat → Bool)
    (fuel n t : Nat) (h : check n t = true) :
    retryLoop ctx I check tie (fuel + 1) n t
      = ⟨some Outcome.success, n + 1, t, [Event.check t true]⟩ := by
  simp [retryLoop, h]

theorem retryLoop_fired (ctx : Context) (I : Nat) (check : Nat → Nat → Bool) (tie : Nat → Bool)
    (fuel n t : Nat) (e : CtxErr) (h : check n t = false) (he : ctx.Err t = some e) :
    retryLoop ctx I check tie (fuel + 1) n t
      = ⟨some (Outcome.expired1 e), n + 1, t,
          [Event.check t false, Event.ctxErr t (some e)]⟩ := by
  simp [retryLoop, h, he]

theorem retryLoop_done (ctx : Context) (I : Nat) (check : Nat → Nat → Bool) (tie : Nat → Bool)
    (fuel n t d : Nat) (h : check n t = false) (he : ctx.Err t = none)
    (hs : selectWait ctx I (tie n) t = Selected.done d) :
    retryLoop ctx I check tie (fuel + 1) n t
      = ⟨some (Outcome.expired2 (ctx.Err d)), n + 1, d,
          [Event.check t false, Event.ctxErr t none, Event.newTimer t, Event.recvDone d]⟩ := by
  simp [retryLoop, h, he, hs]

theorem retryLoop_timer (ctx : Context) (I : Nat) (check : Nat → Nat → Bool) (tie : Nat → Bool)
    (fuel n t d : Nat) (h : check n t = false) (he : ctx.Err t = none)
    (hs : selectWait ctx I (tie n) t = Selected.timer d) :
    retryLoop ctx I check tie (fuel + 1) n t
      = Run.after
          [Event.check t false, Event.ctxErr t none, Event.newTimer t, Event.recvTimer d]
          (retryLoop ctx I check tie fuel (n + 1) d) := by
  simp [retryLoop, h, he, hs]

/-- Every iteration falls in one of the four shapes above. -/
theorem retryLoop_cases (ctx : Context) (I : Nat) (check : Nat → Nat → Bool) (tie : Nat → Bool)
    (fuel n t : Nat) :
    (check n t = true ∧ retryLoop ctx I check tie (fuel + 1) n t
        = ⟨some Outcome.success, n + 1, t, [Event.check t true]⟩) ∨
    (∃ e, check n t = false ∧ ctx.Err t = some e ∧ retryLoop ctx I check tie (fuel + 1) n t
        = ⟨some (Outcome.expired1 e), n + 1, t,
            [Event.check t false, Event.ctxErr t (some e)]⟩) ∨
    (∃ d, check n t = false ∧ ctx.Err t = none ∧
        selectWait ctx I (tie n) t = Selected.done d ∧
        retryLoop ctx I check tie (fuel + 1) n t
          = ⟨some (Outcome.expired2 (ctx.Err d)), n + 1, d,
            [Event.check t false, Event.ctxErr t none, Event.newTimer t, Event.recvDone d]⟩) ∨
    (∃ d, check n t = false ∧ ctx.Err t = none ∧
        selectWait ctx I (tie n) t = Selected.timer d ∧
        retryLoop ctx I check tie (fuel + 1) n t
          = Run.after
              [Event.check t false, Event.ctxErr t none, Event.newTimer t, Event.recvTimer d]
              (retryLoop ctx I check tie fuel (n + 1) d)) := by
  cases hc : check n t with
  | true => exact Or.inl ⟨rfl, retryLoop_ok ctx I check tie fuel n t hc⟩
  | false =>
    cases he : ctx.Err t with
    | some e => exact Or.inr (Or.inl ⟨e, rfl, rfl, retryLoop_fired ctx I check tie fuel n t e hc he⟩)
    | none =>
      cases hs : selectWait ctx I (tie n) t with
      | done d =>
        exact Or.inr (Or.inr (Or.inl ⟨d, rfl, rfl, rfl,
          retryLoop_done ctx I check tie fuel n t d hc he hs⟩))
      | timer d =>
        exact Or.inr (Or.inr (Or.inr ⟨d, rfl, rfl, rfl,
          retryLoop_timer ctx I check tie fuel n t d hc he hs⟩))

theorem retryLoop_calls_ge (ctx : Context) (I : Nat) (check : Nat → Nat → Bool)
    (tie : Nat → Bool) : ∀ fuel n t, n ≤ (retryLoop ctx I check tie fuel n t).calls := by
  intro fuel
  induction fuel with
  | zero => intro n t; simp [retryLoop_zero]
  | succ fuel ih =>
    intro n t
    rcases retryLoop_cases ctx I check tie fuel n t with
      ⟨_, h⟩ | ⟨e, _, _, h⟩ | ⟨d, _, _, _, h⟩ | ⟨d, _, _, _, h⟩
    · simp [h]
    · simp [h]
    · simp [h]
    · rw [h]
      have := ih (n + 1) d
      simp only [Run.after]
      omega

theorem retryLoop_calls_eq (ctx : Context) (I : Nat) (check : Nat → Nat → Bool)
    (tie : Nat → Bool) :
    ∀ fuel n t, (retryLoop ctx I check tie fuel n t).calls
      = n + (retryLoop ctx I check tie fuel n t).trace.countP Event.isCheck := by
  intro fuel
  induction fuel with
  | zero => intro n t; simp [retryLoop_zero]
  | succ fuel ih =>
    intro n t
    rcases retryLoop_cases ctx I check tie fuel n t with
      ⟨_, h⟩ | ⟨e, _, _, h⟩ | ⟨d, _, _, _, h⟩ | ⟨d, _, _, _, h⟩
    · simp [h, Event.isCheck]
    · simp [h, Event.isCheck]
    · simp [h, Event.isCheck]
    · rw [h]
      have := ih (n + 1) d
      simp only [Run.after, List.countP_append, List.countP_cons, List.countP_nil,
        Event.isCheck]
      simp only [Bool.false_eq_true, if_false, if_true]
      omega

theorem retryLoop_trace_split (ctx : Context) (I : Nat) (check : Nat → Nat → Bool)
    (tie : Nat → Bool) :
    ∀ fuel n t pre post s e,
      (retryLoop ctx I check tie fuel n t).trace = pre ++ Event.check s false :: post →
      ctx.Err s = some e →
      post = [Event.ctxErr s (some e)] ∧
      (retryLoop ctx I check tie fuel n t).outcome = some (Outcome.expired1 e) ∧
      (retryLoop ctx I check tie fuel n t).now = s := by
  intro fuel
  induction fuel with
  | zero => intro n t pre post s e h; simp [retryLoop_zero] at h
  | succ fuel ih =>
    intro n t pre post s e h hs
    rcases retryLoop_cases ctx I check tie fuel n t with
      ⟨_, hr⟩ | ⟨e1, _, he1, hr⟩ | ⟨d, _, hn, _, hr⟩ | ⟨d, _, hn, _, hr⟩
    · rw [hr] at h
      rcases pre with _ | ⟨a, pre⟩ <;> simp at h
    · rw [hr] at h ⊢
      rcases pre with _ | ⟨a, _ | ⟨b, pre⟩⟩ <;> simp at h
      obtain ⟨rfl, rfl⟩ := h
      rw [he1] at hs
      cases hs
      simp
    · rw [hr] at h
      rcases pre with _ | ⟨a, _ | ⟨b, _ | ⟨c, _ | ⟨d1, pre⟩⟩⟩⟩ <;> simp at h
      obtain ⟨rfl, _⟩ := h
      rw [hn] at hs
      cases hs
    · rw [hr] at h ⊢
      simp only [Run.after] at h ⊢
      rcases pre with _ | ⟨a, _ | ⟨b, _ | ⟨c, _ | ⟨d1, pre⟩⟩⟩⟩ <;> simp at h
      · obtain ⟨rfl, _⟩ := h
        rw [hn] at hs
        cases hs
      · exact ih (n + 1) d pre post s e h.2.2.2.2 hs

theorem selectWait_timer_first (ctx : Context) (I : Nat) (b : Bool) (t D : Nat)
    (hf : ctx.fireAt = some D) (h : t + I < D) :
    selectWait ctx I b t = Selected.timer (t + I) := by
  have hmax : max D t = D := by omega
  simp only [selectWait, hf, hmax]
  split_ifs <;> first | rfl | omega

theorem selectWait_tie (ctx : Context) (I : Nat) (b : Bool) (t : Nat)
    (hf : ctx.fireAt = some (t + I)) :
    selectWait ctx I b t = if b then Selected.done (t + I) else Selected.timer (t + I) := by
  have hmax : max (t + I) t = t + I := by omega
  simp [selectWait, hf, hmax]

theorem ctxErr_none_of_lt (ctx : Context) (t D : Nat) (hf : ctx.fireAt = some D) (h : t < D) :
    ctx.Err t = none := by
  simp [Context.Err, hf]; omega

theorem ctxErr_some_of_le (ctx : Context) (t D : Nat) (hf : ctx.fireAt = some D) (h : D ≤ t) :
    ctx.Err t = some ctx.cause := by
  simp [Context.Err, hf, h]

/-- With invocations of check that take no time the timed loop is retryLoop. -/
theorem retryLoopTimed_instant (ctx : Context) (I : Nat) (check : Nat → Nat → Bool)
    (tie : Nat → Bool) :
    ∀ fuel n t, retryLoopTimed ctx I check (fun _ _ => 0) tie fuel n t
      = retryLoop ctx I check tie fuel n t := by
  intro fuel
  induction fuel with
  | zero => intro n t; simp [retryLoopTimed, retryLoop]
  | succ fuel ih =>
    intro n t
    simp only [retryLoopTimed, retryLoop, Nat.add_zero, ih]

/-- C1, as stated, fails: with interval 2 and deadline 3 (so I < D) and a check
that succeeds on its third invocation, the second wait is cut short by the
deadline at instant 3 and retryTimeout returns through line 60 after only two
invocations of check. -/
theorem retryTimeout_third_success_counterexample :
    (2 : Nat) < 3 ∧ succeedsOnThird 0 0 = false ∧ succeedsOnThird 1 2 = false ∧
    succeedsOnThird 2 4 = true ∧
    retryTimeout (withTimeout 3) 2 succeedsOnThird (fun _ => true) 10
      = ⟨some (Outcome.expired2 (some CtxErr.DeadlineExceeded)), 2, 3,
          [Event.check 0 false, Event.ctxErr 0 none, Event.newTimer 0, Event.recvTimer 2,
            Event.check 2 false, Event.ctxErr 2 none, Event.newTimer 2, Event.recvDone 3]⟩ := by
  decide

/-- C1 (amended): when two retry intervals end strictly before the deadline
(2 * I < D) and check fails on its first two invocations and succeeds on its
third, retryTimeout returns through the success path at instant 2 * I after
exactly 3 invocations of check, whatever the select does on ties. -/
theorem retryTimeout_third_success (I D : Nat) (check : Nat → Nat → Bool) (tie : Nat → Bool)
    (hID : 2 * I < D) (h0 : ∀ t, check 0 t = false) (h1 : ∀ t, check 1 t = false)
    (h2 : ∀ t, check 2 t = true) (fuel : Nat) (hfuel : 3 ≤ fuel) :
    (retryTimeout (withTimeout D) I check tie fuel).outcome = some Outcome.success ∧
    (retryTimeout (withTimeout D) I check tie fuel).calls = 3 ∧
    (retryTimeout (withTimeout D) I check tie fuel).now = 2 * I := by
  obtain ⟨k, rfl⟩ : ∃ k, fuel = k + 3 := ⟨fuel - 3, by omega⟩
  unfold retryTimeout
  rw [retryLoop_timer (withTimeout D) I check tie (k + 2) 0 0 (0 + I) (h0 0)
      (ctxErr_none_of_lt _ 0 D rfl (by omega))
      (selectWait_timer_first _ I (tie 0) 0 D rfl (by omega)),
    retryLoop_timer (withTimeout D) I check tie (k + 1) (0 + 1) (0 + I) (0 + I + I) (h1 _)
      (ctxErr_none_of_lt _ (0 + I) D rfl (by omega))
      (selectWait_timer_first _ I (tie (0 + 1)) (0 + I) D rfl (by omega)),
    retryLoop_ok (withTimeout D) I check tie k (0 + 1 + 1) (0 + I + I) (h2 _)]
  simp only [Run.after]
  exact ⟨trivial, trivial, by omega⟩

/-- Witness of the amended C1: interval 2, deadline 5. -/
theorem retryTimeout_third_success_witness :
    (retryTimeout (withTimeout 5) 2 succeedsOnThird (fun _ => true) 10).outcome
      = some Outcome.success ∧
    (retryTimeout (withTimeout 5) 2 succeedsOnThird (fun _ => true) 10).calls = 3 ∧
    (retryTimeout (withTimeout 5) 2 succeedsOnThird (fun _ => true) 10).now = 2 * 2 :=
  retryTimeout_third_success 2 5 succeedsOnThird (fun _ => true) (by decide)
    (fun _ => rfl) (fun _ => rfl) (fun _ => rfl) 10 (by decide)

/-- C3, as stated, fails: with interval 1 and deadline 1 the timer and the
deadline are ready together at instant 1, the select may take the timer case,
and check is then invoked a second time at instant 1, when ctx.Err() is already
DeadlineExceeded. -/
theorem retryTimeout_tie_retry_counterexample :
    selectWait (withTimeout 1) 1 false 0 = Selected.timer 1 ∧
    (withTimeout 1).Err 1 = some CtxErr.DeadlineExceeded ∧
    retryTimeout (withTimeout 1) 1 DBHealthCheck (fun _ => false) 10
      = ⟨some (Outcome.expired1 CtxErr.DeadlineExceeded), 2, 1,
          [Event.check 0 false, Event.ctxErr 0 none, Event.newTimer 0, Event.recvTimer 1,
            Event.check 1 false, Event.ctxErr 1 (some CtxErr.DeadlineExceeded)]⟩ := by
  decide

/-- C3 (amended): when the timer of an iteration and the context become ready
at the same instant, the select may take either case. If it takes ctx.Done()
the loop returns through line 60 with the cause of the context. If it takes
the timer, check is invoked exactly once more, at that instant; when that
invocation fails the loop returns through line 45 with the cause of the
context, without another timer or wait, and when it succeeds the loop returns
through the success path. -/
theorem retryLoop_tie (ctx : Context) (I : Nat) (check : Nat → Nat → Bool) (tie : Nat → Bool)
    (fuel n t : Nat) (hI : 0 < I) (hfire : ctx.fireAt = some (t + I))
    (hfail : check n t = false) :
    (tie n = true →
      retryLoop ctx I check tie (fuel + 2) n t
        = ⟨some (Outcome.expired2 (some ctx.cause)), n + 1, t + I,
            [Event.check t false, Event.ctxErr t none, Event.newTimer t,
              Event.recvDone (t + I)]⟩) ∧
    (tie n = false → check (n + 1) (t + I) = false →
      retryLoop ctx I check tie (fuel + 2) n t
        = ⟨some (Outcome.expired1 ctx.cause), n + 2, t + I,
            [Event.check t false, Event.ctxErr t none, Event.newTimer t,
              Event.recvTimer (t + I), Event.check (t + I) false,
              Event.ctxErr (t + I) (some ctx.cause)]⟩) ∧
    (tie n = false → check (n + 1) (t + I) = true →
      retryLoop ctx I check tie (fuel + 2) n t
        = ⟨some Outcome.success, n + 2, t + I,
            [Event.check t false, Event.ctxErr t none, Event.newTimer t,
              Event.recvTimer (t + I), Event.check (t + I) true]⟩) := by
  have hn : ctx.Err t = none := ctxErr_none_of_lt ctx t (t + I) hfire (by omega)
  have hs : ctx.Err (t + I) = some ctx.cause := ctxErr_some_of_le ctx (t + I) (t + I) hfire le_rfl
  have hsel := selectWait_tie ctx I (tie n) t hfire
  have hd : tie n = true → selectWait ctx I (tie n) t = Selected.done (t + I) := by
    intro hb; rw [hsel, hb]; rfl
  have ht : tie n = false → selectWait ctx I (tie n) t = Selected.timer (t + I) := by
    intro hb; rw [hsel, hb]; rfl
  refine ⟨fun hb => ?_, fun hb hc => ?_, fun hb hc => ?_⟩
  · rw [retryLoop_done ctx I check tie (fuel + 1) n t (t + I) hfail hn (hd hb), hs]
  · rw [retryLoop_timer ctx I check tie (fuel + 1) n t (t + I) hfail hn (ht hb),
      retryLoop_fired ctx I check tie fuel (n + 1) (t + I) ctx.cause hc hs]
    rfl
  · rw [retryLoop_timer ctx I check tie (fuel + 1) n t (t + I) hfail hn (ht hb),
      retryLoop_ok ctx I check tie fuel (n + 1) (t + I) hc]
    rfl

/-- Witness of the amended C3 on the values of main: the third wait starts at
instant 20 with interval 10 and deadline 30. The select may end the run there,
or let DBHealthCheck run a fourth time at instant 30. -/
theorem retryLoop_tie_witness :
    retryLoop (withTimeout 30) 10 DBHealthCheck (fun _ => true) (0 + 2) 2 20
      = ⟨some (Outcome.expired2 (some (withTimeout 30).cause)), 2 + 1, 20 + 10,
          [Event.check 20 false, Event.ctxErr 20 none, Event.newTimer 20,
            Event.recvDone (20 + 10)]⟩ ∧
    retryLoop (withTimeout 30) 10 DBHealthCheck (fun _ => false) (0 + 2) 2 20
      = ⟨some (Outcome.expired1 (withTimeout 30).cause), 2 + 2, 20 + 10,
          [Event.check 20 false, Event.ctxErr 20 none, Event.newTimer 20,
            Event.recvTimer (20 + 10), Event.check (20 + 10) false,
            Event.ctxErr (20 + 10) (some (withTimeout 30).cause)]⟩ :=
  ⟨(retryLoop_tie (withTimeout 30) 10 DBHealthCheck (fun _ => true) 0 2 20
      (by decide) rfl rfl).1 rfl,
    (retryLoop_tie (withTimeout 30) 10 DBHealthCheck (fun _ => false) 0 2 20
      (by decide) rfl rfl).2.1 rfl rfl⟩

/-- C4: whatever the state of the context at entry and whatever check does, as
soon as the loop body runs (one iteration or more) check has been invoked at
least once, and the first step of the run is the invocation of check at instant
0: it comes before every read of ctx.Err(), every timer and every wait. -/
theorem retryTimeout_first_attempt (ctx : Context) (I : Nat) (check : Nat → Nat → Bool)
    (tie : Nat → Bool) (fuel : Nat) (hfuel : 0 < fuel) :
    1 ≤ (retryTimeout ctx I check tie fuel).calls ∧
    ∃ rest, (retryTimeout ctx I check tie fuel).trace = Event.check 0 (check 0 0) :: rest := by
  obtain ⟨k, rfl⟩ : ∃ k, fuel = k + 1 := ⟨fuel - 1, by omega⟩
  refine ⟨?_, ?_⟩
  · unfold retryTimeout
    rcases retryLoop_cases ctx I check tie k 0 0 with
      ⟨_, h⟩ | ⟨e, _, _, h⟩ | ⟨d, _, _, _, h⟩ | ⟨d, _, _, _, h⟩
    · simp [h]
    · simp [h]
    · simp [h]
    · rw [h]
      have := retryLoop_calls_ge ctx I check tie k (0 + 1) d
      simp only [Run.after]
      omega
  · unfold retryTimeout
    rcases retryLoop_cases ctx I check tie k 0 0 with
      ⟨hc, h⟩ | ⟨e, hc, _, h⟩ | ⟨d, hc, _, _, h⟩ | ⟨d, hc, _, _, h⟩ <;>
    · rw [h, hc]
      exact ⟨_, rfl⟩

/-- Witness of C4: a context already cancelled at entry. -/
theorem retryTimeout_first_attempt_witness :
    1 ≤ (retryTimeout ⟨some 0, CtxErr.Canceled⟩ 10 DBHealthCheck (fun _ => true) 1).calls ∧
    ∃ rest, (retryTimeout ⟨some 0, CtxErr.Canceled⟩ 10 DBHealthCheck (fun _ => true) 1).trace
      = Event.check 0 (DBHealthCheck 0 0) :: rest :=
  retryTimeout_first_attempt ⟨some 0, CtxErr.Canceled⟩ 10 DBHealthCheck (fun _ => true) 1
    (by decide)

/-- C5: in every run of retryTimeout, a failed invocation of check made at an
instant s where the context has already fired (ctx.Err() is some e) is followed
by the read of ctx.Err() and nothing else: the run ends there, through line 45
with cause e, at the same instant s, with no timer, no wait and no further
invocation of check, so check has been invoked once more than before that
invocation. In particular, when the context has fired at entry and the first
invocation fails, check is invoked exactly once. -/
theorem retryTimeout_fired_returns_at_once (ctx : Context) (I : Nat)
    (check : Nat → Nat → Bool) (tie : Nat → Bool) (fuel : Nat)
    (pre post : List Event) (s : Nat) (e : CtxErr)
    (h : (retryTimeout ctx I check tie fuel).trace = pre ++ Event.check s false :: post)
    (hs : ctx.Err s = some e) :
    post = [Event.ctxErr s (some e)] ∧
    (retryTimeout ctx I check tie fuel).outcome = some (Outcome.expired1 e) ∧
    (retryTimeout ctx I check tie fuel).now = s ∧
    (retryTimeout ctx I check tie fuel).calls = pre.countP Event.isCheck + 1 := by
  obtain ⟨hpost, hout, hnow⟩ := retryLoop_trace_split ctx I check tie fuel 0 0 pre post s e h hs
  refine ⟨hpost, hout, hnow, ?_⟩
  have hc := retryLoop_calls_eq ctx I check tie fuel 0 0
  unfold retryTimeout at h ⊢
  rw [hc, h, hpost]
  simp [List.countP_append, List.countP_cons, Event.isCheck]

/-- Witness of C5: a context already cancelled at entry and DBHealthCheck. The
only invocation of check is the first step of the run. -/
theorem retryTimeout_fired_returns_at_once_witness :
    [Event.ctxErr 0 (some CtxErr.Canceled)] = [Event.ctxErr 0 (some CtxErr.Canceled)] ∧
    (retryTimeout ⟨some 0, CtxErr.Canceled⟩ 10 DBHealthCheck (fun _ => true) 5).outcome
      = some (Outcome.expired1 CtxErr.Canceled) ∧
    (retryTimeout ⟨some 0, CtxErr.Canceled⟩ 10 DBHealthCheck (fun _ => true) 5).now = 0 ∧
    (retryTimeout ⟨some 0, CtxErr.Canceled⟩ 10 DBHealthCheck (fun _ => true) 5).calls
      = ([] : List Event).countP Event.isCheck + 1 :=
  retryTimeout_fired_returns_at_once ⟨some 0, CtxErr.Canceled⟩ 10 DBHealthCheck
    (fun _ => true) 5 [] [Event.ctxErr 0 (some CtxErr.Canceled)] 0 CtxErr.Canceled
    (by decide) (by decide)

end RetryTimeout

namespace DropPattern

theorem drop_inv_init (capacity work : Nat) : Inv capacity work 0 init := by
  constructor <;> simp [init]

theorem drop_inv_parentStep (capacity work n : Nat) (s : State) (h : Inv capacity work n s) :
    Inv capacity work (n + 1) (parentStep capacity work s) := by
  obtain ⟨h1, h2, h3, h4, h5⟩ := h
  unfold parentStep trySend
  split_ifs with hw hp hc
  · refine ⟨?_, ?_, h3, ?_, ?_⟩
    · show s.w + 1 = min work (n + 1); omega
    · show s.delivered + 1 + s.dropped = s.w + 1; omega
    · show s.delivered + 1 = s.buf.length + (s.received ++ ["data"]).length
      rw [List.length_append, List.length_singleton]; omega
    · intro hpk; cases hpk
  · refine ⟨?_, ?_, ?_, ?_, ?_⟩
    · show s.w + 1 = min work (n + 1); omega
    · show s.delivered + 1 + s.dropped = s.w + 1; omega
    · show (s.buf ++ ["data"]).length ≤ capacity
      rw [List.length_append, List.length_singleton]; omega
    · show s.delivered + 1 = (s.buf ++ ["data"]).length + s.received.length
      rw [List.length_append, List.length_singleton]; omega
    · intro hpk; exact absurd hpk hp
  · refine ⟨?_, ?_, h3, h4, h5⟩
    · show s.w + 1 = min work (n + 1); omega
    · show s.delivered + (s.dropped + 1) = s.w + 1; omega
  · refine ⟨?_, h2, h3, h4, h5⟩
    show s.w = min work (n + 1); omega

theorem drop_inv_childStep (capacity work n : Nat) (s : State) (h : Inv capacity work n s) :
    Inv capacity work n (childStep s) := by
  obtain ⟨h1, h2, h3, h4, h5⟩ := h
  unfold childStep
  split
  · exact ⟨h1, h2, h3, h4, h5⟩
  · split
    · rename_i v rest hb
      constructor <;> simp_all <;> omega
    · rename_i hb
      split_ifs <;> constructor <;> simp_all

theorem drop_inv_foldl (capacity work : Nat) (sched : List Actor) :
    ∀ (n : Nat) (s : State), Inv capacity work n s →
      Inv capacity work (n + sched.count Actor.parent) (sched.foldl (step capacity work) s) := by
  induction sched with
  | nil => intro n s h; simpa using h
  | cons a rest ih =>
    intro n s h
    cases a with
    | parent =>
      have := ih (n + 1) _ (drop_inv_parentStep capacity work n s h)
      simpa [step, List.count_cons, Nat.add_assoc, Nat.add_comm 1] using this
    | child =>
      have := ih n _ (drop_inv_childStep capacity work n s h)
      simpa [step, List.count_cons] using this

theorem drop_trySend_dropped_iff (c : Nat) (s : State) (v : String) (hcap : s.buf.length ≤ c) :
    (trySend c s v).1 = DropDecision.Dropped ↔ s.buf.length = c ∧ s.child ≠ Child.parked := by
  unfold trySend
  split_ifs with hp hc
  · simp [hp]
  · simp only [false_iff, not_and]
    intro h; omega
  · simp only [true_iff]
    exact ⟨by omega, hp⟩

theorem drop_parentStep_dropped (c k : Nat) (s : State) (hw : s.w < k)
    (hd : (trySend c s "data").1 = DropDecision.Dropped) :
    parentStep c k s = { s with dropped := s.dropped + 1, w := s.w + 1 } := by
  unfold parentStep
  unfold trySend at hd ⊢
  split_ifs at hd ⊢ with hp hc
  rfl

theorem drop_parentStep_delivered (c k : Nat) (s : State) (hw : s.w < k)
    (hpk : s.child = Child.parked → s.buf = [])
    (hd : (trySend c s "data").1 = DropDecision.Delivered) :
    (parentStep c k s).delivered = s.delivered + 1 ∧
    (parentStep c k s).dropped = s.dropped ∧
    (parentStep c k s).w = s.w + 1 ∧
    (parentStep c k s).received ++ (parentStep c k s).buf
      = s.received ++ s.buf ++ ["data"] := by
  unfold parentStep
  unfold trySend at hd ⊢
  split_ifs at hd ⊢ with hp hc
  · refine ⟨rfl, rfl, rfl, ?_⟩
    show (s.received ++ ["data"]) ++ s.buf = s.received ++ s.buf ++ ["data"]
    rw [hpk hp]
    simp
  · refine ⟨rfl, rfl, rfl, ?_⟩
    show s.received ++ (s.buf ++ ["data"]) = s.received ++ s.buf ++ ["data"]
    simp

theorem drop_parentStep_dropped_only_full (c k : Nat) (s : State) (hcap : s.buf.length ≤ c)
    (hne : (parentStep c k s).dropped ≠ s.dropped) :
    s.w < k ∧ s.buf.length = c ∧ s.child ≠ Child.parked ∧
    (trySend c s "data").1 = DropDecision.Dropped := by
  by_cases hw : s.w < k
  · cases hd : (trySend c s "data").1 with
    | Dropped =>
      have := (drop_trySend_dropped_iff c s "data" hcap).1 hd
      exact ⟨hw, this.1, this.2, rfl⟩
    | Delivered =>
      exfalso
      apply hne
      unfold parentStep
      unfold trySend at hd ⊢
      split_ifs at hd ⊢ with hp hc
      · rfl
      · rfl
  · exfalso
    apply hne
    simp [parentStep, hw]

/-- C6: for a gate of capacity c and a burst of k submissions, in the state
reached under every interleaving of the parent and the draining child: the
submissions made so far are min k (steps of the parent), so no submission ever
blocks, and each one was counted once, as delivered or as dropped (their sum is
k once the parent has taken k steps); the buffer holds at most c values;
delivered = buffered + received by the child, hence delivered is at most
c + received. The select decides Dropped exactly when the buffer holds c values
and the child is not parked in its receive. The next submission of the parent
follows that decision: on Dropped it adds one to dropped and leaves delivered,
the buffer and the values received as they are; on Delivered it adds one to
delivered, leaves dropped as it is and the value data joins the values received
or buffered. So a step of the parent changes dropped only when the buffer is
full. -/
theorem drop_pattern_accounting (c k : Nat) (sched : List Actor) :
    (run c k sched).w = min k (sched.count Actor.parent) ∧
    (run c k sched).delivered + (run c k sched).dropped = (run c k sched).w ∧
    (k ≤ sched.count Actor.parent →
      (run c k sched).delivered + (run c k sched).dropped = k) ∧
    (run c k sched).buf.length ≤ c ∧
    (run c k sched).delivered
      = (run c k sched).buf.length + (run c k sched).received.length ∧
    (run c k sched).delivered ≤ c + (run c k sched).received.length ∧
    ((trySend c (run c k sched) "data").1 = DropDecision.Dropped →
      (run c k sched).buf.length = c ∧
      (trySend c (run c k sched) "data").2 = run c k sched) ∧
    ((trySend c (run c k sched) "data").1 = DropDecision.Dropped ↔
      (run c k sched).buf.length = c ∧ (run c k sched).child ≠ Child.parked) ∧
    ((run c k sched).w < k →
      (trySend c (run c k sched) "data").1 = DropDecision.Dropped →
      run c k (sched ++ [Actor.parent])
        = { run c k sched with
            dropped := (run c k sched).dropped + 1, w := (run c k sched).w + 1 }) ∧
    ((run c k sched).w < k →
      (trySend c (run c k sched) "data").1 = DropDecision.Delivered →
      (run c k (sched ++ [Actor.parent])).delivered = (run c k sched).delivered + 1 ∧
      (run c k (sched ++ [Actor.parent])).dropped = (run c k sched).dropped ∧
      (run c k (sched ++ [Actor.parent])).w = (run c k sched).w + 1 ∧
      (run c k (sched ++ [Actor.parent])).received ++ (run c k (sched ++ [Actor.parent])).buf
        = (run c k sched).received ++ (run c k sched).buf ++ ["data"]) ∧
    ((run c k (sched ++ [Actor.parent])).dropped ≠ (run c k sched).dropped →
      (run c k sched).w < k ∧ (run c k sched).buf.length = c ∧
      (run c k sched).child ≠ Child.parked ∧
      (trySend c (run c k sched) "data").1 = DropDecision.Dropped) := by
  have hstep : run c k (sched ++ [Actor.parent]) = parentStep c k (run c k sched) := by
    simp [run, List.foldl_append, step]
  rw [hstep]
  have h := drop_inv_foldl c k sched 0 init (drop_inv_init c k)
  rw [Nat.zero_add] at h
  change Inv c k _ (run c k sched) at h
  obtain ⟨h1, h2, h3, h4, h5⟩ := h
  refine ⟨h1, h2, ?_, h3, h4, by omega, ?_, drop_trySend_dropped_iff c _ "data" h3,
    fun hw hd => drop_parentStep_dropped c k _ hw hd,
    fun hw hd => drop_parentStep_delivered c k _ hw h5 hd,
    fun hne => drop_parentStep_dropped_only_full c k _ h3 hne⟩
  · intro hk
    rw [h2, h1]
    omega
  · intro hd
    unfold trySend at hd ⊢
    split_ifs at hd ⊢ with hp hc
    exact ⟨by omega, rfl⟩

end DropPattern

namespace FanOut

end FanOut

namespace BoundedWorkPool

theorem work_length : work.length = 2001 := by
  simp [work, sliceLiteral, literalIndices, literalLen]

theorem pool_inv_init (g : Nat) (items : List String) : Inv g items (init g) := by
  constructor <;> simp [init, handledItems]

theorem enum_take_succ (items : List String) (n : Nat) (wrk : String)
    (h : items[n]? = some wrk) :
    items.enum.take (n + 1) = items.enum.take n ++ [(n, wrk)] := by
  rw [List.take_succ]
  simp [List.enum, List.getElem?_enumFrom, h]

theorem pool_inv_parentStep (g : Nat) (items : List String) (s : State) (h : Inv g items s) :
    Inv g items (parentStep g items s) := by
  unfold parentStep
  split
  · rename_i hpc
    split_ifs with hlt
    · exact { h with
        c_le := hlt
        spawned := fun hne => absurd hpc hne
        left_lt := fun i hi => Nat.lt_succ_of_lt (h.left_lt i hi)
        worker_lt := fun x hx => Nat.lt_succ_of_lt (h.worker_lt x hx) }
    · exact { h with
        spawned := fun _ => le_antisymm h.c_le (Nat.le_of_not_lt hlt)
        spawn := fun hf => by cases hf
        sending := fun _ => h.sending (Or.inl hpc)
        sentAll := fun _ hne => absurd rfl hne
        closed_iff := fun hf => by rcases hf with hf | hf <;> cases hf
        closing := fun hf => by cases hf
        fin := fun hf => by cases hf }
  · rename_i hpc
    split
    · rename_i wrk hw
      split_ifs with hlt
      · have hclosed : s.closed = false := h.sending (Or.inr hpc)
        have hleft : s.left = [] := by
          by_contra hne
          rw [(h.drained hne).1] at hclosed
          cases hclosed
        have hnext : s.next < items.length := by
          by_contra hge
          rw [List.getElem?_eq_none (Nat.le_of_not_lt hge)] at hw
          cases hw
        exact { h with
          spawn := fun hf => by rw [hpc] at hf; cases hf
          next_le := hnext
          sentAll := fun _ hne => absurd hpc hne
          flow := by
            show handledItems s ++ (s.buf ++ [(s.next, wrk)]) = items.enum.take (s.next + 1)
            rw [enum_take_succ items s.next wrk hw, ← List.append_assoc, h.flow]
          cap := by
            show (s.buf ++ [(s.next, wrk)]).length ≤ g
            rw [List.length_append, List.length_singleton]
            exact hlt
          drained := fun hne => absurd hleft hne }
      · exact h
    · rename_i hw
      exact { h with
        spawned := fun _ => h.spawned (by rw [hpc]; simp)
        spawn := fun hf => by cases hf
        sending := fun hf => by rcases hf with hf | hf <;> cases hf
        sentAll := fun _ _ =>
          le_antisymm h.next_le (List.getElem?_eq_none_iff.1 hw)
        closed_iff := fun hf => by rcases hf with hf | hf <;> cases hf
        closing := fun _ => h.sending (Or.inr hpc)
        fin := fun hf => by cases hf }
  · rename_i hpc
    have hclosed : s.closed = false := h.closing hpc
    have hleft : s.left = [] := by
      by_contra hne
      rw [(h.drained hne).1] at hclosed
      cases hclosed
    exact { h with
      spawned := fun _ => h.spawned (by rw [hpc]; simp)
      spawn := fun hf => by cases hf
      sending := fun hf => by rcases hf with hf | hf <;> cases hf
      sentAll := fun _ _ => h.sentAll (by rw [hpc]; simp) (by rw [hpc]; simp)
      closed_iff := fun _ => rfl
      closing := fun hf => by cases hf
      drained := fun hne => absurd hleft hne
      fin := fun hf => by cases hf }
  · rename_i hpc
    split_ifs with hz
    · exact { h with
        spawned := fun _ => h.spawned (by rw [hpc]; simp)
        spawn := fun hf => by cases hf
        sending := fun hf => by rcases hf with hf | hf <;> cases hf
        sentAll := fun _ _ => h.sentAll (by rw [hpc]; simp) (by rw [hpc]; simp)
        closed_iff := fun _ => h.closed_iff (Or.inl hpc)
        closing := fun hf => by cases hf
        fin := fun _ => hz }
    · exact h
  · exact h

theorem pool_inv_receive (g : Nat) (items : List String) (i : Nat) (s : State)
    (x : Nat × String) (rest : List (Nat × String)) (h : Inv g items s) (hi : i < s.c)
    (hb : s.buf = x :: rest) :
    Inv g items { s with buf := rest, handled := s.handled ++ [(i, x.1, x.2)] } := by
  have hleft : s.left = [] := by
    by_contra hne
    have := (h.drained hne).2
    rw [hb] at this
    cases this
  exact { h with
    flow := by
      show (s.handled ++ [(i, x.1, x.2)]).map (fun h => (h.2.1, h.2.2)) ++ rest
        = items.enum.take s.next
      have := h.flow
      rw [hb] at this
      rw [← this]
      simp [handledItems]
    cap := by
      have := h.cap
      rw [hb] at this
      exact Nat.le_of_succ_le this
    drained := fun hne => absurd hleft hne
    worker_lt := by
      intro y hy
      have hy : y ∈ s.handled ++ [(i, x.1, x.2)] := hy
      rw [List.mem_append, List.mem_singleton] at hy
      rcases hy with hy | rfl
      · exact h.worker_lt y hy
      · exact hi }

theorem pool_inv_workerStep (g : Nat) (items : List String) (i : Nat) (s : State)
    (h : Inv g items s) : Inv g items (workerStep i s) := by
  unfold workerStep
  split_ifs with hi hd hl hc
  · exact h
  · exact { h with
      done_nodup := by
        show (s.doneCalls ++ [i]).Nodup
        rw [List.nodup_append]
        refine ⟨h.done_nodup, List.nodup_singleton i, ?_⟩
        intro a ha hb
        rw [List.mem_singleton] at hb
        subst hb
        exact hd ha
      done_left := by
        intro j hj
        have hj : j ∈ s.doneCalls ++ [i] := hj
        rw [List.mem_append, List.mem_singleton] at hj
        rcases hj with hj | rfl
        · exact h.done_left j hj
        · exact hl
      wg_eq := by
        show s.wg - 1 = (g : Int) - ((s.doneCalls ++ [i]).length : Int)
        rw [h.wg_eq, List.length_append, List.length_singleton]
        push_cast
        ring
      fin := by
        intro hf
        exfalso
        have hpc : s.pc = ParentPc.finished := hf
        have hz := h.fin hpc
        have hw := h.wg_eq
        have hlen : s.doneCalls.length = g := by omega
        have hsub : ∀ x ∈ i :: s.doneCalls, x < g := by
          intro x hx
          rcases List.mem_cons.1 hx with rfl | hx
          · exact lt_of_lt_of_le hi h.c_le
          · exact lt_of_lt_of_le (h.left_lt x (h.done_left x hx)) h.c_le
        have hnd : (i :: s.doneCalls).Nodup := List.nodup_cons.2 ⟨hd, h.done_nodup⟩
        have hcard : (i :: s.doneCalls).toFinset ⊆ Finset.range g := by
          intro x hx
          exact Finset.mem_range.2 (hsub x (List.mem_toFinset.1 hx))
        have := Finset.card_le_card hcard
        rw [List.toFinset_card_of_nodup hnd, Finset.card_range, List.length_cons] at this
        omega }
  · split
    · rename_i x rest hb
      exact pool_inv_receive g items i s x rest h hi hb
    · rename_i hb
      exact { h with
        drained := fun _ => ⟨hc, hb⟩
        left_nodup := by
          show (s.left ++ [i]).Nodup
          rw [List.nodup_append]
          refine ⟨h.left_nodup, List.nodup_singleton i, ?_⟩
          intro a ha hb
          rw [List.mem_singleton] at hb
          subst hb
          exact hl ha
        left_lt := by
          intro j hj
          have hj : j ∈ s.left ++ [i] := hj
          rw [List.mem_append, List.mem_singleton] at hj
          rcases hj with hj | rfl
          · exact h.left_lt j hj
          · exact hi
        done_left := by
          intro j hj
          show j ∈ s.left ++ [i]
          exact List.mem_append_left _ (h.done_left j hj) }
  · split
    · rename_i x rest hb
      exact pool_inv_receive g items i s x rest h hi hb
    · exact h
  · exact h

theorem pool_inv_run (g : Nat) (items : List String) (sched : List Actor) :
    Inv g items (run g items sched) := by
  unfold run
  suffices h : ∀ s, Inv g items s → Inv g items (sched.foldl (step g items) s) from
    h _ (pool_inv_init g items)
  induction sched with
  | nil => intro s h; exact h
  | cons a rest ih =>
    intro s h
    simp only [List.foldl_cons]
    apply ih
    cases a with
    | parent => exact pool_inv_parentStep g items s h
    | worker i => exact pool_inv_workerStep g items i s h

theorem pool_done_lt (g : Nat) (items : List String) (s : State) (h : Inv g items s) :
    ∀ i ∈ s.doneCalls, i < g :=
  fun i hi => lt_of_lt_of_le (h.left_lt i (h.done_left i hi)) h.c_le

theorem pool_receive_changes (i : Nat) (s : State) (x : Nat × String) (rest : List (Nat × String))
    (hi : i < s.c) (hd : i ∉ s.doneCalls) (hl : i ∉ s.left) (hb : s.buf = x :: rest) :
    workerStep i s ≠ s := by
  simp only [workerStep, hi, hd, hl, if_true, if_false, hb]
  intro hcon
  have := congrArg (fun t => t.buf.length) hcon
  simp [hb] at this

theorem pool_not_stuck (g : Nat) (items : List String) (s : State) (hg : 1 ≤ g)
    (h : Inv g items s) (hpc : s.pc ≠ ParentPc.finished) :
    ∃ a, step g items s a ≠ s := by
  cases hp : s.pc with
  | finished => exact absurd hp hpc
  | spawnLoop =>
    refine ⟨Actor.parent, ?_⟩
    simp only [step, parentStep, hp]
    split_ifs with hlt
    · intro hcon
      have := congrArg State.c hcon
      simp at this
    · intro hcon
      have := congrArg State.pc hcon
      rw [hp] at this
      cases this
  | sendLoop =>
    have hc : s.c = g := h.spawned (by rw [hp]; simp)
    have hclosed : s.closed = false := h.sending (Or.inr hp)
    have hleft : s.left = [] := by
      by_contra hne
      rw [(h.drained hne).1] at hclosed
      cases hclosed
    cases hw : items[s.next]? with
    | none =>
      refine ⟨Actor.parent, ?_⟩
      simp only [step, parentStep, hp, hw]
      intro hcon
      have := congrArg State.pc hcon
      rw [hp] at this
      cases this
    | some wrk =>
      by_cases hlt : s.buf.length < g
      · refine ⟨Actor.parent, ?_⟩
        simp only [step, parentStep, hp, hw, hlt, if_true]
        intro hcon
        have := congrArg State.next hcon
        simp at this
      · cases hb : s.buf with
        | nil => rw [hb] at hlt; simp at hlt; omega
        | cons x rest =>
          refine ⟨Actor.worker 0, ?_⟩
          have h0l : (0 : Nat) ∉ s.left := by rw [hleft]; simp
          exact pool_receive_changes 0 s x rest (by omega) (fun hd => h0l (h.done_left 0 hd)) h0l hb
  | closing =>
    refine ⟨Actor.parent, ?_⟩
    simp only [step, parentStep, hp]
    intro hcon
    have := congrArg State.pc hcon
    rw [hp] at this
    cases this
  | waiting =>
    have hc : s.c = g := h.spawned (by rw [hp]; simp)
    by_cases hz : s.wg = 0
    · refine ⟨Actor.parent, ?_⟩
      simp only [step, parentStep, hp, hz, if_true]
      intro hcon
      have := congrArg State.pc hcon
      rw [hp] at this
      cases this
    · have hle := ListFacts.length_le_of_nodup_lt s.doneCalls g h.done_nodup (pool_done_lt g items s h)
      have hw := h.wg_eq
      obtain ⟨i, hi, hni⟩ := ListFacts.exists_not_mem_of_length_lt s.doneCalls g (by omega)
      refine ⟨Actor.worker i, ?_⟩
      by_cases hl : i ∈ s.left
      · simp only [step, workerStep, hc, hi, hni, hl, if_true, if_false]
        intro hcon
        have := congrArg (fun t => t.doneCalls.length) hcon
        simp at this
      · cases hb : s.buf with
        | cons x rest => exact pool_receive_changes i s x rest (by omega) hni hl hb
        | nil =>
          have hclosed : s.closed = true := h.closed_iff (Or.inl hp)
          simp only [step, workerStep, hc, hi, hni, hl, if_true, if_false, hb, hclosed]
          intro hcon
          have := congrArg (fun t => t.left.length) hcon
          simp at this

theorem pool_finished_facts (g : Nat) (items : List String) (s : State) (hg : 1 ≤ g)
    (h : Inv g items s) (hfin : s.pc = ParentPc.finished) :
    handledItems s = items.enum ∧ s.handled.length = items.length ∧ s.buf = [] ∧
    s.closed = true ∧ s.doneCalls.Perm (List.range g) ∧ (∀ i, i < g → i ∈ s.left) := by
  have hz := h.fin hfin
  have hw := h.wg_eq
  have hperm : s.doneCalls.Perm (List.range g) :=
    ListFacts.perm_range_of_nodup_lt s.doneCalls g h.done_nodup (pool_done_lt g items s h) (by omega)
  have hall : ∀ i, i < g → i ∈ s.left := by
    intro i hi
    exact h.done_left i (hperm.mem_iff.2 (List.mem_range.2 hi))
  have hne : s.left ≠ [] := by
    intro he
    have := hall 0 (by omega)
    rw [he] at this
    cases this
  obtain ⟨hclosed, hbuf⟩ := h.drained hne
  have hnext : s.next = items.length :=
    h.sentAll (by rw [hfin]; simp) (by rw [hfin]; simp)
  have hflow := h.flow
  rw [hbuf, List.append_nil, hnext] at hflow
  have henum : items.enum.take items.length = items.enum := by
    apply List.take_of_length_le
    simp
  rw [henum] at hflow
  refine ⟨hflow, ?_, hbuf, hclosed, hperm, hall⟩
  have := congrArg List.length hflow
  simpa [handledItems] using this

theorem pool_inv_step (g : Nat) (items : List String) (s : State) (a : Actor)
    (h : Inv g items s) : Inv g items (step g items s a) := by
  cases a with
  | parent => exact pool_inv_parentStep g items s h
  | worker i => exact pool_inv_workerStep g items i s h

theorem pool_progress_step (g : Nat) (items : List String) (s : State) (a : Actor)
    (h : step g items s a ≠ s) : progress (step g items s a) = progress s + 1 := by
  cases a with
  | parent =>
    simp only [step] at h ⊢
    unfold parentStep at h ⊢
    split at h
    · rename_i hpc
      split_ifs at h ⊢ with hlt
      · simp only [progress, hpc]; omega
      · simp only [progress, hpc]
    · rename_i hpc
      split at h
      · split_ifs at h ⊢ with hlt
        · simp only [progress, hpc]; omega
        · exact absurd rfl h
      · simp only [progress, hpc]
    · rename_i hpc
      simp only [progress, hpc]
    · rename_i hpc
      split_ifs at h ⊢ with hz
      · simp only [progress, hpc]
      · exact absurd rfl h
    · exact absurd rfl h
  | worker i =>
    simp only [step] at h ⊢
    unfold workerStep at h ⊢
    split_ifs at h ⊢ with hi hd hl hc
    · exact absurd rfl h
    · simp only [progress, List.length_append, List.length_singleton]; omega
    · split at h
      · simp only [progress, List.length_append, List.length_singleton]; omega
      · simp only [progress, List.length_append, List.length_singleton]; omega
    · split at h
      · simp only [progress, List.length_append, List.length_singleton]; omega
      · exact absurd rfl h
    · exact absurd rfl h

theorem pool_progress_le (g : Nat) (items : List String) (s : State) (h : Inv g items s) :
    progress s ≤ 3 * g + 2 * items.length + 4 := by
  have h1 := h.c_le
  have h2 := h.next_le
  have h3 : s.handled.length + s.buf.length = s.next := by
    have := congrArg List.length h.flow
    simp only [handledItems, List.length_append, List.length_map, List.length_take,
      List.enum_length] at this
    omega
  have h4 : s.left.length ≤ g :=
    ListFacts.length_le_of_nodup_lt s.left g h.left_nodup
      (fun x hx => lt_of_lt_of_le (h.left_lt x hx) h.c_le)
  have h5 : s.doneCalls.length ≤ g :=
    ListFacts.length_le_of_nodup_lt s.doneCalls g h.done_nodup (pool_done_lt g items s h)
  unfold progress
  split <;> omega

theorem pool_reaches_finished (g : Nat) (items : List String) (hg : 1 ≤ g) :
    ∀ (n : Nat) (s : State), Inv g items s →
      3 * g + 2 * items.length + 4 ≤ progress s + n →
      ∃ more : List Actor, more.length ≤ n ∧
        (more.foldl (step g items) s).pc = ParentPc.finished := by
  intro n
  induction n with
  | zero =>
    intro s h hn
    by_cases hpc : s.pc = ParentPc.finished
    · exact ⟨[], le_rfl, hpc⟩
    · exfalso
      obtain ⟨a, ha⟩ := pool_not_stuck g items s hg h hpc
      have h1 := pool_progress_step g items s a ha
      have h2 := pool_progress_le g items _ (pool_inv_step g items s a h)
      omega
  | succ n ih =>
    intro s h hn
    by_cases hpc : s.pc = ParentPc.finished
    · exact ⟨[], Nat.zero_le _, hpc⟩
    · obtain ⟨a, ha⟩ := pool_not_stuck g items s hg h hpc
      have h1 := pool_progress_step g items s a ha
      obtain ⟨more, hlen, hfin⟩ := ih (step g items s a) (pool_inv_step g items s a h) (by omega)
      exact ⟨a :: more, by simp only [List.length_cons]; omega, by simpa using hfin⟩

/-- C8: for a pool of g workers, g at least 1, fed with any slice of items, in
the state reached under every interleaving of the parent and the workers: the
values handled so far followed by the buffered ones are exactly the values sent
so far, in order, so no value is lost or handled twice; every handled value
went to one of the g workers; a worker calls wg.Done() at most once and only
after leaving its receive loop. Once wg.Wait() has returned, the handled values
are exactly the items, each index once (so items.length in total), the buffer
is empty, ch is closed, every one of the g workers has called wg.Done() exactly
once and all of them have left their receive loop. The program does get there:
before that point some goroutine can always take a step, every step that
changes the state adds one to progress, progress never exceeds
3 * g + 2 * items.length + 4, and from the state reached some continuation of
at most that many steps less progress makes wg.Wait() return. -/
theorem pool_handles_each_item_once (g : Nat) (items : List String) (sched : List Actor)
    (hg : 1 ≤ g) :
    handledItems (run g items sched) ++ (run g items sched).buf
      = items.enum.take (run g items sched).next ∧
    (∀ h ∈ (run g items sched).handled, h.1 < g) ∧
    ((run g items sched).doneCalls.Nodup ∧
      ∀ i ∈ (run g items sched).doneCalls, i < g ∧ i ∈ (run g items sched).left) ∧
    ((run g items sched).pc = ParentPc.finished →
      handledItems (run g items sched) = items.enum ∧
      (run g items sched).handled.length = items.length ∧
      (run g items sched).buf = [] ∧
      (run g items sched).closed = true ∧
      (run g items sched).doneCalls.Perm (List.range g) ∧
      (∀ i, i < g → i ∈ (run g items sched).left)) ∧
    ((run g items sched).pc ≠ ParentPc.finished →
      ∃ a, step g items (run g items sched) a ≠ run g items sched) ∧
    (∀ a, step g items (run g items sched) a ≠ run g items sched →
      progress (step g items (run g items sched) a) = progress (run g items sched) + 1) ∧
    progress (run g items sched) ≤ 3 * g + 2 * items.length + 4 ∧
    (∃ more : List Actor,
      more.length + progress (run g items sched) ≤ 3 * g + 2 * items.length + 4 ∧
      (run g items (sched ++ more)).pc = ParentPc.finished) := by
  have h := pool_inv_run g items sched
  have hrun : ∀ more : List Actor,
      run g items (sched ++ more) = more.foldl (step g items) (run g items sched) := by
    intro more
    simp [run, List.foldl_append]
  have hle := pool_progress_le g items _ h
  obtain ⟨more, hlen, hfin⟩ :=
    pool_reaches_finished g items hg (3 * g + 2 * items.length + 4 - progress (run g items sched))
      (run g items sched) h (by omega)
  refine ⟨h.flow, fun x hx => lt_of_lt_of_le (h.worker_lt x hx) h.c_le,
    ⟨h.done_nodup, fun i hi => ⟨pool_done_lt g items _ h i hi, h.done_left i hi⟩⟩,
    pool_finished_facts g items _ hg h, pool_not_stuck g items _ hg h,
    fun a ha => pool_progress_step g items _ a ha, hle, more, by omega, ?_⟩
  rw [hrun]
  exact hfin

/-- Witness of C8 on the scenario with pool size 4 and items a, b, c, d, e. -/
theorem pool_handles_each_item_once_witness :
    1 ≤ 4 ∧ (run 4 exampleItems exampleSched).pc = ParentPc.finished ∧
    handledItems (run 4 exampleItems exampleSched) = exampleItems.enum ∧
    (run 4 exampleItems exampleSched).handled.length = exampleItems.length ∧
    (run 4 exampleItems exampleSched).buf = [] :=
  ⟨by decide, by decide,
    ((pool_handles_each_item_once 4 exampleItems exampleSched (by decide)).2.2.2.1
      (by decide)).1,
    ((pool_handles_each_item_once 4 exampleItems exampleSched (by decide)).2.2.2.1
      (by decide)).2.1,
    ((pool_handles_each_item_once 4 exampleItems exampleSched (by decide)).2.2.2.1
      (by decide)).2.2.1⟩

/-- C10: the slice literal of line 14 puts its last element at index 2000, so
work has 2001 elements, not 2000: four times paper, 1996 empty strings and one
more paper. The parent therefore sends 2001 values, and a pool of one worker or
more has handled 2001 values when wg.Wait() returns. -/
theorem work_has_2001_elements :
    work.length = 2001 ∧ work.length ≠ 2000 ∧
    work.take 5 = ["paper", "paper", "paper", "paper", ""] ∧
    work[2000]? = some "paper" ∧
    (∀ (g : Nat) (sched : List Actor), 1 ≤ g →
      (run g work sched).pc = ParentPc.finished →
      (run g work sched).next = 2001 ∧ (run g work sched).handled.length = 2001) := by
  have hlen : work.length = 2001 := work_length
  refine ⟨hlen, by rw [hlen]; decide, ?_, ?_, ?_⟩
  · simp [work, sliceLiteral, literalIndices, literalLen, List.take_succ, List.lookup]
  · simp [work, sliceLiteral, literalIndices, literalLen, List.lookup]
  · intro g sched hg hfin
    have h := pool_inv_run g work sched
    have hf := pool_finished_facts g work (run g work sched) hg h hfin
    refine ⟨?_, by rw [hf.2.1, hlen]⟩
    rw [h.sentAll (by rw [hfin]; simp) (by rw [hfin]; simp), hlen]

end BoundedWorkPool

namespace CancellationPattern

theorem cancel_inv_init : Inv init := by
  constructor <;> simp [init]

theorem cancel_inv_step (s : State) (a : Actor) (h : Inv s) : Inv (step 1 s a) := by
  obtain ⟨h1, h2, h3⟩ := h
  cases a with
  | child =>
    simp only [step, childStep]
    split
    · rename_i hc
      have hb := h2 hc
      split_ifs with hp hl
      · exact ⟨by simp, by simp, h3⟩
      · exact ⟨by simp, by simp, by simp [hb]⟩
      · rw [hb] at hl; simp at hl
    · exact ⟨h1, h2, h3⟩
    · exact ⟨h1, h2, h3⟩
  | parent b =>
    simp only [step, parentStep]
    split
    · split_ifs with hr hf hf2
      · exact ⟨h1, h2, h3⟩
      · unfold receive
        split
        · rename_i v rest hb
          split_ifs with hbl
          · exact absurd hbl h1
          · refine ⟨h1, ?_, ?_⟩
            · intro hc
              have := h2 hc
              rw [hb] at this
              cases this
            · rw [hb, List.length_cons] at h3
              show rest.length ≤ 1
              omega
        · exact ⟨by simp, by simp, h3⟩
      · exact ⟨h1, h2, h3⟩
      · exact ⟨h1, h2, h3⟩
    · exact ⟨h1, h2, h3⟩
  | timeout =>
    simp only [step, timeoutStep]
    split_ifs <;> exact ⟨h1, h2, h3⟩

theorem cancel_sent_stable (capacity : Nat) (s : State) (a : Actor) (h : s.child = ChildPc.sent) :
    (step capacity s a).child = ChildPc.sent := by
  cases a with
  | child => simp [step, childStep, h]
  | parent b =>
    simp only [step, parentStep]
    split
    · split_ifs
      · exact h
      · unfold receive
        split
        · split_ifs
          · rfl
          · exact h
        · rfl
      · exact h
      · exact h
    · exact h
  | timeout =>
    simp only [step, timeoutStep]
    split_ifs <;> exact h

theorem cancel_child_step_sends (s : State) (h : Inv s) : (step 1 s Actor.child).child = ChildPc.sent := by
  simp only [step, childStep]
  split
  · rename_i hc
    have hb := h.empty hc
    split_ifs with hp hl
    · rfl
    · rfl
    · rw [hb] at hl; simp at hl
  · rename_i hc; exact absurd hc h.notBlocked
  · rename_i hc; exact hc

theorem cancel_foldl_facts (sched : List Actor) :
    ∀ s, Inv s →
      Inv (sched.foldl (step 1) s) ∧
      (s.child = ChildPc.sent → (sched.foldl (step 1) s).child = ChildPc.sent) ∧
      (Actor.child ∈ sched → (sched.foldl (step 1) s).child = ChildPc.sent) := by
  induction sched with
  | nil => intro s h; exact ⟨h, fun hs => hs, fun hm => by cases hm⟩
  | cons a rest ih =>
    intro s h
    obtain ⟨i1, i2, i3⟩ := ih (step 1 s a) (cancel_inv_step s a h)
    refine ⟨i1, fun hs => i2 (cancel_sent_stable 1 s a hs), fun hm => ?_⟩
    rcases List.mem_cons.1 hm with rfl | hm
    · exact i2 (cancel_child_step_sends s h)
    · exact i3 hm

theorem cancel_blocked_stable (more : List Actor) :
    ∀ s, s.parent = ParentPc.cancelled → s.child = ChildPc.blockedSend →
      (more.foldl (step 0) s).parent = ParentPc.cancelled ∧
      (more.foldl (step 0) s).child = ChildPc.blockedSend := by
  induction more with
  | nil => intro s hp hc; exact ⟨hp, hc⟩
  | cons a rest ih =>
    intro s hp hc
    simp only [List.foldl_cons]
    cases a with
    | child =>
      apply ih
      · simp [step, childStep, hc, hp]
      · simp [step, childStep, hc]
    | parent b =>
      apply ih
      · simp [step, parentStep, hp]
      · simp [step, parentStep, hp, hc]
    | timeout =>
      apply ih
      · simp [step, timeoutStep, hp]
      · simp [step, timeoutStep, hp, hc]

/-- C9: with the capacity 1 of line 18, under every interleaving of the child,
the parent and the timeout, the child (the only writer, which sends once) is
never blocked in its send: the buffer holds at most one value, the send
completes in the very step the child takes, from every reachable state, and
stays completed afterwards, whether the parent took the result or walked away
on ctx.Done(). With capacity 0 instead, in the interleaving where the timeout
fires first and the parent walks away, the child blocks in its send and stays
blocked whatever happens next. -/
theorem buffered_result_never_blocks :
    (∀ sched : List Actor,
      (run 1 sched).child ≠ ChildPc.blockedSend ∧
      (run 1 sched).buf.length ≤ 1 ∧
      (step 1 (run 1 sched) Actor.child).child = ChildPc.sent ∧
      (Actor.child ∈ sched → (run 1 sched).child = ChildPc.sent)) ∧
    ((run 1 timeoutFirst).parent = ParentPc.cancelled ∧
      (run 1 timeoutFirst).child = ChildPc.sent) ∧
    ((run 0 timeoutFirst).parent = ParentPc.cancelled ∧
      ∀ more : List Actor,
        (run 0 (timeoutFirst ++ more)).parent = ParentPc.cancelled ∧
        (run 0 (timeoutFirst ++ more)).child = ChildPc.blockedSend) := by
  refine ⟨fun sched => ?_, ⟨by decide, by decide⟩, by decide, fun more => ?_⟩
  · obtain ⟨i1, _, i3⟩ := cancel_foldl_facts sched init cancel_inv_init
    exact ⟨i1.notBlocked, i1.cap, cancel_child_step_sends _ i1, i3⟩
  · unfold run
    rw [List.foldl_append]
    exact cancel_blocked_stable more _ (by decide) (by decide)

end CancellationPattern
